import Mathlib

/-!
Shallow embedding of the fallback routing layer of `server.py`: the
placeholder scanner (`_pattern`), the route compiler
(`_compile_route_to_regex`), the matcher (`match_flask_route`), the route
table (`CustomServer.route` / `CustomServer.handle`), the media-type table
(`get_content_type`) and the static-file responder (`send_file`).

Strings are modelled as lists of characters.  Character classes written with
`\w` and `\d` in the source regular expressions are modelled over ASCII; the
registered routes, the media-type table and every string the claims mention
are ASCII, so this does not affect any statement below.
-/

set_option maxRecDepth 4000

namespace Waggle

/-- Decidable equality for results of fallible operations. -/
instance instDecEqExcept [DecidableEq ε] [DecidableEq α] : DecidableEq (Except ε α) :=
  fun x y =>
    match x, y with
    | .error a, .error b =>
      if h : a = b then .isTrue (by rw [h]) else .isFalse (fun hh => h (Except.error.inj hh))
    | .ok a, .ok b =>
      if h : a = b then .isTrue (by rw [h]) else .isFalse (fun hh => h (Except.ok.inj hh))
    | .error _, .ok _ => .isFalse (fun hh => Except.noConfusion hh)
    | .ok _, .error _ => .isFalse (fun hh => Except.noConfusion hh)

/-- Strings of the embedded program: lists of characters. -/
abbrev Str := List Char

/-- Turns a Lean string literal into the character-list representation. -/
def str (s : String) : Str := s.data

/-- Extracted parameters: an association list from variable name to the text
captured for it, in the order the capture groups appear in the template. -/
abbrev Params := List (Str × Str)

/-- ASCII model of the word character class used by the placeholder pattern:
letters, digits and underscore. -/
def wordChar (c : Char) : Bool := c.isAlphanum || c == '_'

/-- Parses the text that follows an opening angle bracket against the
placeholder pattern `_pattern`, i.e. an optional converter part
(a word, optionally followed by a parenthesised argument list, then a colon),
then a variable word, then the closing angle bracket.  The branching below
reproduces the backtracking of the pattern: the converter word and the
variable word are maximal word runs (a shorter run would be followed by a
word character, which can never continue the pattern), the argument list is
everything up to the first closing parenthesis, and when the converter
alternative fails the whole word is retried as the bare variable, which
requires the closing angle bracket immediately after it.
Returns `(converter?, args?, variable, remainder after the bracket)`. -/
def parsePlaceholder (s : Str) : Option (Option Str × Option Str × Str × Str) :=
  let w := s.takeWhile wordChar
  let rest := s.drop w.length
  if w.isEmpty then none
  else
    match rest with
    | ':' :: r2 =>
      let v := r2.takeWhile wordChar
      let r3 := r2.drop v.length
      match r3 with
      | '>' :: r4 => if v.isEmpty then none else some (some w, none, v, r4)
      | _ => none
    | '(' :: r2 =>
      let a := r2.takeWhile (fun c => c != ')')
      let r3 := r2.drop a.length
      match r3 with
      | ')' :: ':' :: r4 =>
        let v := r4.takeWhile wordChar
        let r5 := r4.drop v.length
        match r5 with
        | '>' :: r6 => if v.isEmpty then none else some (some w, some a, v, r6)
        | _ => none
      | _ => none
    | '>' :: r2 => some (none, none, w, r2)
    | _ => none

/-- Converter match fragments, one per entry of `_CONVERTER_REGEX` plus the
inline enumerated-choice fragment built for the `any` converter. -/
inductive Frag where
  | fstring
  | fpath
  | fint
  | ffloat
  | fuuid
  | fany (alts : List Str)
deriving DecidableEq, Repr

/-- The converter table `_CONVERTER_REGEX` of the source, with each regex
fragment represented by its `Frag` constructor. -/
def _CONVERTER_REGEX : List (Str × Frag) :=
  [ (str "string", .fstring)
  , (str "path",   .fpath)
  , (str "int",    .fint)
  , (str "float",  .ffloat)
  , (str "uuid",   .fuuid) ]

/-- Failures of `_compile_route_to_regex`.  In the source these are the
exception raised when the `any` converter has no argument list
(`args.split` on an absent value), and the two group-name errors raised by
the regex compiler at the end. -/
inductive CompileError where
  | anyNoArgs
  | badGroupName
  | dupGroupName
deriving DecidableEq, Repr

/-- Helper for `splitOnComma`: accumulates the current piece reversed. -/
def splitCommaAux : Str → Str → List Str
  | [], acc => [acc.reverse]
  | ',' :: r, acc => acc.reverse :: splitCommaAux r []
  | c :: r, acc => splitCommaAux r (c :: acc)

/-- Splitting on commas with the semantics of the source language's
`split(",")`: the empty string yields one empty piece. -/
def splitOnComma (s : Str) : List Str := splitCommaAux s []

/-- The per-placeholder expression choice of `_compile_route_to_regex`: the
`any` converter splits its argument list into literal alternatives and fails
when the argument list is absent; every other converter name is looked up in
`_CONVERTER_REGEX` with the `string` fragment as default. -/
def exprFor (conv : Str) (args : Option Str) : Except CompileError Frag :=
  if conv = str "any" then
    match args with
    | none => .error .anyNoArgs
    | some a => .ok (.fany (splitOnComma a))
  else
    .ok ((((_CONVERTER_REGEX.find? (fun e => e.1 == conv)).map Prod.snd)).getD .fstring)

/-- Compiled route pieces: escaped literal text between placeholders, and one
named capture group per placeholder. -/
inductive Tok where
  | lit (s : Str)
  | cap (v : Str) (f : Frag)
deriving DecidableEq, Repr

/-- Prepends a character to the leading literal piece of a token list. -/
def consLit (c : Char) : List Tok → List Tok
  | .lit l :: ts => .lit (c :: l) :: ts
  | ts => .lit [c] :: ts

/-- Fuel-indexed scan of a route template, mirroring the finditer loop of
`_compile_route_to_regex`: literal text is accumulated until an opening
angle bracket that starts a well-formed placeholder; each placeholder
contributes a capture token (converter defaulting to `string` when absent);
scanning resumes after the placeholder.  An opening bracket that does not
start a well-formed placeholder is literal text.  The produced token list
alternates literal and capture pieces exactly like the `parts` list of the
source, including empty literal pieces.  The fuel only bounds the recursion
and is always at least the length of the remaining input. -/
def scanAux : Nat → Str → Except CompileError (List Tok)
  | 0, _ => .ok [.lit []]
  | _ + 1, [] => .ok [.lit []]
  | fuel + 1, c :: rest =>
    if c = '<' then
      match parsePlaceholder rest with
      | some (conv, args, v, r) => do
        let f ← exprFor (conv.getD (str "string")) args
        let toks ← scanAux fuel r
        pure (.lit [] :: .cap v f :: toks)
      | none => consLit '<' <$> scanAux fuel rest
    else consLit c <$> scanAux fuel rest

/-- Scans a whole route template into tokens. -/
def scanTokens (route : Str) : Except CompileError (List Tok) :=
  scanAux route.length route

/-- The capture-group names of a token list, in order of appearance. -/
def varsOf (toks : List Tok) : List Str :=
  toks.filterMap fun t =>
    match t with
    | .cap v _ => some v
    | .lit _ => none

/-- A capture-group name the regex compiler rejects: group names must be
identifiers, and a variable word fails that exactly when it starts with a
digit (the empty case cannot arise from the scanner). -/
def invalidGroupName (v : Str) : Bool :=
  match v with
  | [] => true
  | c :: _ => c.isDigit

/-- Models `_compile_route_to_regex`: scan the template into tokens (the
scan itself can fail only on an `any` placeholder with no argument list),
then fail the way the final regex compilation does when a capture-group
name is invalid or duplicated. -/
def _compile_route_to_regex (route : Str) : Except CompileError (List Tok) := do
  let toks ← scanTokens route
  if (varsOf toks).any invalidGroupName then .error .badGroupName
  else if (varsOf toks).Nodup then .ok toks
  else .error .dupGroupName

/-- Candidate `(captured, remainder)` splits for a one-or-more repetition of
a character class, in greedy backtracking order: longest capture first. -/
def plusCands (p : Char → Bool) (s : Str) : List (Str × Str) :=
  let m := (s.takeWhile p).length
  (List.range m).map fun i => (s.take (m - i), s.drop (m - i))

/-- Candidates for one-or-more decimal digits. -/
def digitCands (s : Str) : List (Str × Str) := plusCands Char.isDigit s

/-- Candidates for the float fragment (digits, optionally a dot and more
digits), in greedy backtracking order: for each digit run, first the variants
with a fractional part (longest first), then the bare run. -/
def floatCands (s : Str) : List (Str × Str) :=
  (digitCands s).flatMap fun dr =>
    (match dr.2 with
     | '.' :: r2 => (digitCands r2).map fun er => (dr.1 ++ '.' :: er.1, er.2)
     | _ => []) ++ [dr]

/-- Hexadecimal characters, both cases. -/
def isHexChar (c : Char) : Bool :=
  c.isDigit || ('a' ≤ c && c ≤ 'f') || ('A' ≤ c && c ≤ 'F')

/-- Consumes exactly `n` hexadecimal characters. -/
def takeHex : Nat → Str → Option (Str × Str)
  | 0, s => some ([], s)
  | n + 1, c :: r => if isHexChar c then (takeHex n r).map (fun p => (c :: p.1, p.2)) else none
  | _ + 1, [] => none

/-- Consumes a dash. -/
def takeDash : Str → Option Str
  | '-' :: r => some r
  | _ => none

/-- The canonical 8-4-4-4-12 hexadecimal UUID shape: a fixed-length pattern,
so it has at most one candidate split. -/
def uuidCand (s : Str) : Option (Str × Str) := do
  let (a, s1) ← takeHex 8 s
  let s2 ← takeDash s1
  let (b, s3) ← takeHex 4 s2
  let s4 ← takeDash s3
  let (c, s5) ← takeHex 4 s4
  let s6 ← takeDash s5
  let (d, s7) ← takeHex 4 s6
  let s8 ← takeDash s7
  let (e, s9) ← takeHex 12 s8
  pure (a ++ '-' :: b ++ '-' :: c ++ '-' :: d ++ '-' :: e, s9)

/-- Candidate splits a fragment can consume from the input, in the regex
engine's backtracking preference order.  The `string` class excludes the
path separator, the `path` class is the dot class (any character except a
newline), the `any` alternation tries its literal alternatives in the
listed order. -/
def candidates : Frag → Str → List (Str × Str)
  | .fstring, s => plusCands (fun c => c != '/') s
  | .fpath, s => plusCands (fun c => c != '\n') s
  | .fint, s => digitCands s
  | .ffloat, s => floatCands s
  | .fuuid, s =>
    match uuidCand s with
    | some cr => [cr]
    | none => []
  | .fany alts, s =>
    alts.filterMap fun a => if a.isPrefixOf s then some (a, s.drop a.length) else none

/-- Matches a compiled token list against a path, with backtracking over the
candidate splits of each capture.  The check at the end of the token list
models the closing anchor of the compiled pattern, which accepts the end of
the string and also the position just before a single final newline. -/
def matchFrom : List Tok → Str → Option Params
  | [], s => if s = [] ∨ s = ['\n'] then some [] else none
  | .lit l :: ts, s => if l.isPrefixOf s then matchFrom ts (s.drop l.length) else none
  | .cap v f :: ts, s =>
    (candidates f s).findSome? fun cr =>
      match matchFrom ts cr.2 with
      | some ps => some ((v, cr.1) :: ps)
      | none => none

/-- Models `match_flask_route`: compiles the route pattern (on every call)
and matches it against the path; a compilation failure propagates, a
structural mismatch is the `none` result. -/
def match_flask_route (pat path : Str) : Except CompileError (Option Params) :=
  (_compile_route_to_regex pat).map fun toks => matchFrom toks path

/-- Insertion-order-preserving dictionary update, modelling assignment into
the `paths` dictionary: an existing key keeps its position and receives the
new value, a new key is appended at the end. -/
def dictInsert : List (Str × α) → Str → α → List (Str × α)
  | [], k, v => [(k, v)]
  | (k1, v1) :: rest, k, v =>
    if k1 = k then (k1, v) :: rest else (k1, v1) :: dictInsert rest k v

/-- Models `CustomServer.route`: stores the handler under the raw template
string in the path table.  No compilation happens here. -/
def route (tbl : List (Str × α)) (template : Str) (f : α) : List (Str × α) :=
  dictInsert tbl template f

/-- Models `CustomServer.handle`: walks the whole table in registration
order, compiling and matching every template; every matching handler is
invoked with its extracted parameters (the loop has no early exit).
Returns the invocation list in order together with the compilation error, if
one was raised (the exception aborts the remaining iterations). -/
def handle : List (Str × α) → Str → List (α × Params) × Option CompileError
  | [], _ => ([], none)
  | (pat, h) :: rest, path =>
    match match_flask_route pat path with
    | .error e => ([], some e)
    | .ok none => handle rest path
    | .ok (some ps) => ((h, ps) :: (handle rest path).1, (handle rest path).2)

/-- A template is placeholder-free when the scan never finds a well-formed
placeholder: every opening angle bracket fails to parse as one. -/
def noPH : Str → Bool
  | [] => true
  | c :: rest => (if c = '<' then (parsePlaceholder rest).isNone else true) && noPH rest

/-- ASCII model of lower-casing a character. -/
def lowerChar (c : Char) : Char :=
  if 65 ≤ c.toNat ∧ c.toNat ≤ 90 then Char.ofNat (c.toNat + 32) else c

/-- ASCII model of lower-casing a string. -/
def toLowerStr (s : Str) : Str := s.map lowerChar

/-- Suffix test on the character-list representation. -/
def endswith (s suffix : Str) : Bool := suffix.isSuffixOf s

/-- The extension table `mime_types` of `get_content_type`, in its insertion
order, including the final empty-extension fallback entry. -/
def mime_types : List (Str × Str) :=
  [ (str ".txt",  str "text/plain")
  , (str ".htm",  str "text/html")
  , (str ".html", str "text/html")
  , (str ".css",  str "text/css")
  , (str ".csv",  str "text/csv")
  , (str ".md",   str "text/markdown")
  , (str ".rtf",  str "application/rtf")
  , (str ".js",   str "application/javascript")
  , (str ".mjs",  str "application/javascript")
  , (str ".json", str "application/json")
  , (str ".xml",  str "application/xml")
  , (str ".yaml", str "application/x-yaml")
  , (str ".yml",  str "application/x-yaml")
  , (str ".png",  str "image/png")
  , (str ".jpg",  str "image/jpeg")
  , (str ".jpeg", str "image/jpeg")
  , (str ".gif",  str "image/gif")
  , (str ".bmp",  str "image/bmp")
  , (str ".webp", str "image/webp")
  , (str ".svg",  str "image/svg+xml")
  , (str ".ico",  str "image/vnd.microsoft.icon")
  , (str ".tiff", str "image/tiff")
  , (str ".mp3",  str "audio/mpeg")
  , (str ".wav",  str "audio/wav")
  , (str ".ogg",  str "audio/ogg")
  , (str ".flac", str "audio/flac")
  , (str ".aac",  str "audio/aac")
  , (str ".mp4",  str "video/mp4")
  , (str ".mov",  str "video/quicktime")
  , (str ".avi",  str "video/x-msvideo")
  , (str ".wmv",  str "video/x-ms-wmv")
  , (str ".webm", str "video/webm")
  , (str ".mpeg", str "video/mpeg")
  , (str ".mkv",  str "video/x-matroska")
  , (str ".woff", str "font/woff")
  , (str ".woff2", str "font/woff2")
  , (str ".ttf",  str "font/ttf")
  , (str ".otf",  str "font/otf")
  , (str ".eot",  str "application/vnd.ms-fontobject")
  , (str ".zip",  str "application/zip")
  , (str ".tar",  str "application/x-tar")
  , (str ".gz",   str "application/gzip")
  , (str ".rar",  str "application/vnd.rar")
  , (str ".7z",   str "application/x-7z-compressed")
  , (str ".pdf",  str "application/pdf")
  , (str ".doc",  str "application/msword")
  , (str ".docx", str "application/vnd.openxmlformats-officedocument.wordprocessingml.document")
  , (str ".xls",  str "application/vnd.ms-excel")
  , (str ".xlsx", str "application/vnd.openxmlformats-officedocument.spreadsheetml.sheet")
  , (str ".ppt",  str "application/vnd.ms-powerpoint")
  , (str ".pptx", str "application/vnd.openxmlformats-officedocument.presentationml.presentation")
  , (str "",      str "application/octet-stream") ]

/-- First-match lookup in an extension table: the first entry whose
extension is a suffix of the (already lower-cased) path wins, and the final
return of the source supplies the octet-stream default. -/
def lookupMime (tbl : List (Str × Str)) (p : Str) : Str :=
  match tbl.find? (fun e => endswith p e.1) with
  | some e => e.2
  | none => str "application/octet-stream"

/-- Models `get_content_type`: lower-case the path, then try the table
entries in their insertion order. -/
def get_content_type (path : Str) : Str := lookupMime mime_types (toLowerStr path)

/-- The entries of `mime_types` with a nonempty extension: everything except
the final fallback entry. -/
def mimeMain : List (Str × Str) := mime_types.dropLast

/-- Response descriptor recorded by the fallback responder: status code,
headers in the order they are sent, and the body bytes. -/
structure FileResponse where
  status : Nat
  headers : List (Str × Str)
  body : List Nat
deriving DecidableEq, Repr

/-- File systems, mapping a served path to its byte content when the file
exists.  The resolution of the incoming relative path against the current
directory (`os.path.abspath(os.path.join('.', path))` in the source) is
modelled as the identity on the relative path. -/
def FileSystem : Type := Str → Option (List Nat)

/-- Models `send_file`: an existing file is answered with status 200, the
single Content-Type header obtained from the media-type resolver, and the
file bytes; a missing file is answered with status 404 and no headers. -/
def send_file (fs : FileSystem) (path : Str) : FileResponse :=
  match fs path with
  | some data => ⟨200, [(str "Content-Type", get_content_type path)], data⟩
  | none => ⟨404, [], []⟩

/-- Handlers of the server: extracted parameters in, response out. -/
def Handler : Type := Params → FileResponse

/-- Looks up one named argument passed to a handler. -/
def getParam (ps : Params) (v : Str) : Str :=
  ((ps.find? fun e => e.1 == v).map Prod.snd).getD []

/-- Joining with the path-library slash of the source: an absolute second
component replaces the first one. -/
def pathJoin (a b : Str) : Str := if b.head? = some '/' then b else a ++ '/' :: b

/-- Models `sendindex`: serves the index document, ignoring parameters. -/
def sendindex (fs : FileSystem) : Handler := fun _ => send_file fs (str "index.html")

/-- Models `serve_script`: serves the requested path under the js root. -/
def serve_script (fs : FileSystem) : Handler := fun ps =>
  send_file fs (pathJoin (str "js") (getParam ps (str "requested_path")))

/-- Models `serve_style`: serves the requested path under the css root. -/
def serve_style (fs : FileSystem) : Handler := fun ps =>
  send_file fs (pathJoin (str "css") (getParam ps (str "requested_path")))

/-- The route table the module builds.  Stacked decorators run inside-out,
so `/index.html` is registered before `/`, followed by the two asset
routes. -/
def appTable (fs : FileSystem) : List (Str × Handler) :=
  route (route (route (route [] (str "/index.html") (sendindex fs))
    (str "/") (sendindex fs))
    (str "/js/<path:requested_path>") (serve_script fs))
    (str "/css/<path:requested_path>") (serve_style fs)

/-- The responses one request produces: every invoked handler applied to its
extracted parameters, in invocation order. -/
def responsesFor (fs : FileSystem) (path : Str) : List FileResponse :=
  ((handle (appTable fs) path).1).map fun hp => hp.1 hp.2

/-- Demonstration table that registers a catch-all template before a
specific one; handlers are numbered in registration order. -/
def demoTable : List (Str × Nat) :=
  route (route [] (str "/<path:any>") 1) (str "/index.html") 2

/-- Demonstration file system holding only the index document. -/
def fs0 : FileSystem := fun p => if p = str "index.html" then some [104, 105] else none

/-! Helper lemmas. -/

/-- Scanning a placeholder-free template yields the whole template as one
literal piece, for any sufficient amount of fuel. -/
theorem scanAux_noPH (fuel : Nat) (s : Str) (hlen : s.length ≤ fuel) (h : noPH s = true) :
    scanAux fuel s = .ok [.lit s] := by
  induction fuel generalizing s with
  | zero =>
    have hs : s = [] := List.length_eq_zero.mp (Nat.le_zero.mp hlen)
    subst hs; rfl
  | succ f ih =>
    match s with
    | [] => rfl
    | c :: rest =>
      have hrest : rest.length ≤ f := Nat.le_of_succ_le_succ hlen
      simp only [noPH, Bool.and_eq_true] at h
      by_cases hc : c = '<'
      · subst hc
        simp only [eq_self_iff_true, if_true, Option.isNone_iff_eq_none] at h
        simp only [scanAux, eq_self_iff_true, if_true, h.1]
        rw [ih rest hrest h.2]
        rfl
      · simp only [scanAux, if_neg hc]
        rw [ih rest hrest h.2]
        rfl

/-- A placeholder-free template compiles to a single literal token. -/
theorem compile_noPH (t : Str) (h : noPH t = true) :
    _compile_route_to_regex t = .ok [.lit t] := by
  have hscan : scanTokens t = .ok [.lit t] := scanAux_noPH t.length t le_rfl h
  unfold _compile_route_to_regex
  rw [hscan]
  rfl

/-- Matching a single literal token accepts exactly the literal itself,
optionally followed by one final newline. -/
theorem matchFrom_single_lit (t p : Str) :
    matchFrom [.lit t] p = some [] ↔ p = t ∨ p = t ++ ['\n'] := by
  constructor
  · intro h
    simp only [matchFrom] at h
    by_cases hpre : t.isPrefixOf p
    · rw [if_pos hpre] at h
      obtain ⟨r, hr⟩ := List.isPrefixOf_iff_prefix.mp hpre
      subst hr
      rw [List.drop_left] at h
      by_cases hr0 : r = [] ∨ r = ['\n']
      · rcases hr0 with hr0 | hr0 <;> subst hr0 <;> simp
      · rw [if_neg hr0] at h; exact absurd h (by simp)
    · rw [if_neg hpre] at h; exact absurd h (by simp)
  · intro h
    have build : ∀ r : Str, (r = [] ∨ r = ['\n']) → matchFrom [.lit t] (t ++ r) = some [] := by
      intro r hr
      have hpre : t.isPrefixOf (t ++ r) = true :=
        List.isPrefixOf_iff_prefix.mpr (List.prefix_append t r)
      simp only [matchFrom, if_pos hpre, List.drop_left, if_pos hr]
    rcases h with h | h
    · subst h; simpa using build [] (Or.inl rfl)
    · subst h; exact build ['\n'] (Or.inr rfl)

/-- A prefix all of whose elements satisfy the class is a prefix of the
maximal run of that class. -/
theorem prefix_takeWhile_of_all (p : Char → Bool) (c : Str) :
    ∀ l : Str, c <+: l → (∀ x ∈ c, p x = true) → c <+: List.takeWhile p l := by
  induction c with
  | nil => exact fun l _ _ => List.nil_prefix
  | cons a t ih =>
    intro l h hall
    obtain ⟨r, hr⟩ := h
    subst hr
    rw [ List.cons_append, List.takeWhile_cons_of_pos (hall a (by simp))]
    obtain ⟨r2, hr2⟩ := ih (t ++ r) ⟨r, rfl⟩ (fun x hx => hall x (by simp [hx]))
    exact ⟨r2, by rw [ List.cons_append, hr2]⟩

/-- Membership characterisation of the candidate splits of a one-or-more
character-class repetition: the splits are exactly the decompositions whose
captured part is a nonempty run of class characters. -/
theorem mem_plusCands (p : Char → Bool) (s cap rest : Str) :
    (cap, rest) ∈ plusCands p s ↔
      cap ≠ [] ∧ (∀ x ∈ cap, p x = true) ∧ s = cap ++ rest := by
  unfold plusCands
  constructor
  · intro h
    obtain ⟨i, hi, heq⟩ := List.mem_map.mp h
    have him : i < (s.takeWhile p).length := List.mem_range.mp hi
    obtain ⟨hcap, hrest⟩ := Prod.mk.inj heq
    set k := (s.takeWhile p).length - i with hk
    have hk1 : 1 ≤ k := by omega
    have hkm : k ≤ (s.takeWhile p).length := by omega
    have hlen : (s.takeWhile p).length ≤ s.length :=
      List.IsPrefix.length_le (List.takeWhile_prefix p)
    have htake : s.take k = List.take k (s.takeWhile p) := by
      conv_lhs => rw [← List.takeWhile_append_dropWhile p s]
      exact List.take_append_of_le_length hkm
    refine ⟨?_, ?_, ?_⟩
    · intro hnil
      rw [← hcap] at hnil
      have : min k s.length = 0 := by
        simpa [List.length_take] using congrArg List.length hnil
      omega
    · intro x hx
      rw [← hcap, htake] at hx
      exact List.mem_takeWhile_imp (List.take_subset _ _ hx)
    · rw [← hcap, ← hrest]; exact (List.take_append_drop k s).symm
  · rintro ⟨hne, hall, hsplit⟩
    have hpre : cap <+: s := hsplit ▸ List.prefix_append cap rest
    have hpretw : cap <+: s.takeWhile p := prefix_takeWhile_of_all p cap s hpre hall
    have hlen : cap.length ≤ (s.takeWhile p).length := List.IsPrefix.length_le hpretw
    have hpos : 1 ≤ cap.length := by
      cases cap with
      | nil => exact absurd rfl hne
      | cons a t => simp
    refine List.mem_map.mpr ⟨(s.takeWhile p).length - cap.length, List.mem_range.mpr (by omega), ?_⟩
    have hk : (s.takeWhile p).length - ((s.takeWhile p).length - cap.length) = cap.length :=
      Nat.sub_sub_self hlen
    rw [hk]
    have htake : s.take cap.length = cap := by
      rw [hsplit]; exact List.take_left cap rest
    have hdrop : s.drop cap.length = rest := by
      rw [hsplit]; exact List.drop_left cap rest
    rw [htake, hdrop]

/-- The matcher of `match_flask_route` fails with exactly the compilation
errors of the route, independent of the path. -/
theorem match_flask_route_error (pat path : Str) (e : CompileError) :
    match_flask_route pat path = .error e ↔ _compile_route_to_regex pat = .error e := by
  unfold match_flask_route
  cases h : _compile_route_to_regex pat <;> simp [Except.map]

/-! Claim theorems. -/

/-- Converter resolution can fail only for the `any` converter with an
absent argument list; in particular it never fails on a converter name. -/
theorem exprFor_error (conv : Str) (args : Option Str) (e : CompileError)
    (h : exprFor conv args = .error e) : e = CompileError.anyNoArgs := by
  unfold exprFor at h
  by_cases hany : conv = str "any"
  · rw [if_pos hany] at h
    cases args with
    | none => exact (Except.error.inj h).symm
    | some a => exact Except.noConfusion h
  · rw [if_neg hany] at h
    exact Except.noConfusion h

/-- The template scan can fail only with the absent-argument error of the
`any` converter: no converter name, known or unknown, makes it fail. -/
theorem scanAux_error (fuel : Nat) (s : Str) (e : CompileError)
    (h : scanAux fuel s = .error e) : e = CompileError.anyNoArgs := by
  induction fuel generalizing s with
  | zero => exact Except.noConfusion h
  | succ f ih =>
    cases s with
    | nil => exact Except.noConfusion h
    | cons c rest =>
      simp only [scanAux] at h
      by_cases hc : c = '<'
      · rw [if_pos hc] at h
        cases hp : parsePlaceholder rest with
        | none =>
          rw [hp] at h
          have h2 : consLit '<' <$> scanAux f rest = Except.error e := h
          cases hs : scanAux f rest with
          | error e2 =>
            rw [hs] at h2
            have he2 : e2 = e := Except.error.inj h2
            exact ih rest (he2 ▸ hs)
          | ok toks =>
            rw [hs] at h2
            exact Except.noConfusion h2
        | some quad =>
          obtain ⟨conv, args, v, r⟩ := quad
          rw [hp] at h
          have h2 : (exprFor (conv.getD (str "string")) args >>= fun fr =>
              scanAux f r >>= fun toks =>
                pure (Tok.lit [] :: Tok.cap v fr :: toks)) = Except.error e := h
          cases hex : exprFor (conv.getD (str "string")) args with
          | error e2 =>
            rw [hex] at h2
            have he2 : e2 = e := Except.error.inj h2
            exact he2 ▸ exprFor_error _ args e2 hex
          | ok frag =>
            rw [hex] at h2
            cases hs : scanAux f r with
            | error e2 =>
              rw [hs] at h2
              have he2 : e2 = e := Except.error.inj h2
              exact ih r (he2 ▸ hs)
            | ok toks =>
              rw [hs] at h2
              exact Except.noConfusion h2
      · rw [if_neg hc] at h
        cases hs : scanAux f rest with
        | error e2 =>
          rw [hs] at h
          have he2 : e2 = e := Except.error.inj h
          exact ih rest (he2 ▸ hs)
        | ok toks =>
          rw [hs] at h
          exact Except.noConfusion h

/-- Claim C1, counterexample: with the catch-all template registered before
the specific one, a request for the specific path invokes BOTH handlers, in
registration order; the second, also-matching route is not skipped, contrary
to the claim that only the first match is invoked. -/
theorem claim_C1_counterexample :
    ((handle demoTable (str "/index.html")).1).map Prod.fst = [1, 2] ∧
    ((handle demoTable (str "/index.html")).1).map Prod.fst ≠ [1] := by decide

/-- Claim C1, amended: `handle` tries the registered templates strictly in
registration order and invokes EVERY route whose matcher consumes the whole
path, each with its extracted parameters; no matching route is skipped.
(When no template fails to compile, the invocation list is exactly the
in-order sublist of matching routes.) -/
theorem claim_C1_amended {α : Type} (tbl : List (Str × α)) (path : Str)
    (hok : (handle tbl path).2 = none) :
    (handle tbl path).1 = tbl.filterMap (fun e =>
      match match_flask_route e.1 path with
      | .ok (some ps) => some (e.2, ps)
      | _ => none) := by
  induction tbl with
  | nil => rfl
  | cons hd rest ih =>
    obtain ⟨pat, h⟩ := hd
    rw [List.filterMap_cons]
    cases hm : match_flask_route pat path with
    | error e =>
      have h2 : (handle ((pat, h) :: rest) path).2 = some e := by
        simp only [handle, hm]
      rw [h2] at hok
      exact Option.noConfusion hok
    | ok o =>
      cases o with
      | none =>
        have hok2 : (handle rest path).2 = none := by
          simpa only [handle, hm] using hok
        have hh : handle ((pat, h) :: rest) path = handle rest path := by
          simp only [handle, hm]
        rw [hh]
        exact ih hok2
      | some ps =>
        have hok2 : (handle rest path).2 = none := by
          simpa only [handle, hm] using hok
        have hh : (handle ((pat, h) :: rest) path).1 = (h, ps) :: (handle rest path).1 := by
          simp only [handle, hm]
        rw [hh]
        exact congrArg (List.cons (h, ps)) (ih hok2)

/-- Claim C1, witness: on the demonstration table both routes match the
path, and the invocation list delivered by the amended theorem is the full
in-order list of matches with their extracted parameters. -/
theorem claim_C1_witness :
    (handle demoTable (str "/index.html")).1 =
      [(1, [(str "any", str "index.html")]), (2, [])] :=
  (claim_C1_amended demoTable (str "/index.html") (by decide)).trans (by decide)

/-- Claim C3, counterexample: registering the malformed template `<any:x>`
succeeds (the route is stored as-is, nothing is compiled), and the
compilation error is raised later, during request handling, for any path —
contrary to the claim that compilation failures surface at registration and
never during dispatch. -/
theorem claim_C3_counterexample :
    route ([] : List (Str × Nat)) (str "<any:x>") 7 = [(str "<any:x>", 7)] ∧
    (handle (route ([] : List (Str × Nat)) (str "<any:x>") 7) (str "/p")).2 =
      some CompileError.anyNoArgs := by decide

/-- Claim C3, amended: registration stores the raw template without
compiling it, and templates are compiled during dispatch, on every request
and for every registered route: a dispatch completes without raising exactly
when every registered template compiles, so compilation failures surface at
request time, not at registration. -/
theorem claim_C3_amended {α : Type} (tbl : List (Str × α)) (path : Str) :
    (handle tbl path).2 = none ↔
      ∀ e ∈ tbl, (_compile_route_to_regex e.1).isOk = true := by
  induction tbl with
  | nil => simp [handle]
  | cons hd rest ih =>
    obtain ⟨pat, h⟩ := hd
    constructor
    · intro hok e he
      cases hm : match_flask_route pat path with
      | error er =>
        have h2 : (handle ((pat, h) :: rest) path).2 = some er := by
          simp only [handle, hm]
        rw [h2] at hok
        exact Option.noConfusion hok
      | ok o =>
        have hcomp : (_compile_route_to_regex pat).isOk = true := by
          unfold match_flask_route at hm
          cases hc : _compile_route_to_regex pat with
          | error er2 =>
            rw [hc] at hm
            exact Except.noConfusion hm
          | ok toks => rfl
        rcases List.mem_cons.mp he with rfl | hmem
        · exact hcomp
        · have hok2 : (handle rest path).2 = none := by
            cases o <;> simpa only [handle, hm] using hok
          exact (ih.mp hok2) e hmem
    · intro hall
      have hcomp := hall (pat, h) (by simp)
      obtain ⟨toks, hc⟩ : ∃ toks, _compile_route_to_regex pat = .ok toks := by
        cases hc : _compile_route_to_regex pat with
        | error er =>
          rw [hc] at hcomp
          exact Bool.noConfusion hcomp
        | ok toks => exact ⟨toks, rfl⟩
      have hm : match_flask_route pat path = .ok (matchFrom toks path) := by
        unfold match_flask_route
        rw [hc]
        rfl
      have hok2 : (handle rest path).2 = none :=
        ih.mpr fun e he => hall e (List.mem_cons_of_mem _ he)
      cases ho : matchFrom toks path with
      | none =>
        rw [ho] at hm
        simp only [handle, hm]
        exact hok2
      | some ps =>
        rw [ho] at hm
        simp only [handle, hm]
        exact hok2

/-- Claim C3, witness: on the demonstration table every template compiles,
and dispatching an arbitrary path raises no compilation error. -/
theorem claim_C3_witness : (handle demoTable (str "/abc")).2 = none :=
  (claim_C3_amended demoTable (str "/abc")).mpr (by decide)

/-- Claim C4, counterexample: the purely literal template `/index.html` also
matches the path `/index.html` followed by one newline character, which is
not byte-for-byte equal to the template, because the closing anchor of the
compiled pattern accepts the position just before a final newline. -/
theorem claim_C4_counterexample :
    (∃ ps, match_flask_route (str "/index.html") (str "/index.html" ++ ['\n']) =
      .ok (some ps)) ∧
    str "/index.html" ++ ['\n'] ≠ str "/index.html" :=
  ⟨⟨[], by decide⟩, by decide⟩

/-- Claim C4, amended: for templates consisting only of literal text (the
scan finds no placeholder), dispatch matches exactly the template itself and
the template followed by one final newline: anchoring at the start is exact,
anchoring at the end is exact up to one optional trailing newline. -/
theorem claim_C4_amended (t p : Str) (h : noPH t = true) :
    (∃ ps, match_flask_route t p = .ok (some ps)) ↔ p = t ∨ p = t ++ ['\n'] := by
  have hc := compile_noPH t h
  have hm : match_flask_route t p = .ok (matchFrom [.lit t] p) := by
    unfold match_flask_route
    rw [hc]
    rfl
  have hcases : matchFrom [Tok.lit t] p = some [] ∨ matchFrom [Tok.lit t] p = none := by
    simp only [matchFrom]
    by_cases h1 : t.isPrefixOf p
    · rw [if_pos h1]
      by_cases h2 : p.drop t.length = [] ∨ p.drop t.length = ['\n']
      · rw [if_pos h2]
        exact Or.inl rfl
      · rw [if_neg h2]
        exact Or.inr rfl
    · rw [if_neg h1]
      exact Or.inr rfl
  constructor
  · rintro ⟨ps, hps⟩
    rw [hm] at hps
    have hmf : matchFrom [Tok.lit t] p = some ps := Except.ok.inj hps
    rcases hcases with hone | hone
    · exact (matchFrom_single_lit t p).mp hone
    · rw [hone] at hmf
      exact Option.noConfusion hmf
  · intro hor
    exact ⟨[], by rw [hm, (matchFrom_single_lit t p).mpr hor]⟩

/-- Claim C4, witness: the byte-for-byte-equal direction on a concrete
literal template and path. -/
theorem claim_C4_witness :
    ∃ ps, match_flask_route (str "/index.html") (str "/index.html") = .ok (some ps) :=
  (claim_C4_amended (str "/index.html") (str "/index.html") (by decide)).mpr (Or.inl rfl)

/-- Claim C5: a converter name outside the supported set never fails
compilation — its placeholder resolves to exactly the `string` fragment, and
the whole template scan can only ever fail with the `any` absent-argument
error, never on a converter name — and the `string` fragment consumes
exactly the nonempty runs of characters that exclude the path separator. -/
theorem claim_C5 (conv : Str) (args : Option Str)
    (h : conv ∉ [str "string", str "path", str "int", str "float", str "uuid", str "any"]) :
    exprFor conv args = .ok Frag.fstring ∧
    (∀ t : Str, ∀ e : CompileError, scanTokens t = .error e → e = CompileError.anyNoArgs) ∧
    ∀ s cap rest : Str, ((cap, rest) ∈ candidates Frag.fstring s ↔
      cap ≠ [] ∧ (∀ x ∈ cap, x ≠ '/') ∧ s = cap ++ rest) := by
  refine ⟨?_, fun t e he => scanAux_error t.length t e he, ?_⟩
  · simp only [List.mem_cons, List.not_mem_nil, or_false, not_or] at h
    obtain ⟨h1, h2, h3, h4, h5, h6⟩ := h
    unfold exprFor
    rw [if_neg h6]
    have hfind : _CONVERTER_REGEX.find? (fun e => e.1 == conv) = none := by
      rw [List.find?_eq_none]
      intro x hx
      simp only [_CONVERTER_REGEX, List.mem_cons, List.not_mem_nil, or_false] at hx
      rcases hx with rfl | rfl | rfl | rfl | rfl <;>
        simp only [beq_eq_false_iff_ne, ne_eq, Bool.not_eq_true] <;>
        [exact fun he => h1 he.symm; exact fun he => h2 he.symm;
         exact fun he => h3 he.symm; exact fun he => h4 he.symm;
         exact fun he => h5 he.symm]
    rw [hfind]
    rfl
  · intro s cap rest
    show (cap, rest) ∈ plusCands (fun c => c != '/') s ↔ _
    rw [mem_plusCands]
    simp only [bne_iff_ne]

/-- Claim C5, witness: the unknown converter name `blah` resolves to the
`string` fragment, and that fragment offers the nonempty separator-free
split of a concrete input. -/
theorem claim_C5_witness :
    exprFor (str "blah") none = .ok Frag.fstring ∧
    _compile_route_to_regex (str "/x/<blah:v>") =
      .ok [Tok.lit (str "/x/"), Tok.cap (str "v") Frag.fstring, Tok.lit []] ∧
    (str "ab", str "/c") ∈ candidates Frag.fstring (str "ab/c") :=
  ⟨(claim_C5 (str "blah") none (by decide)).1, by decide,
   ((claim_C5 (str "blah") none (by decide)).2.2 (str "ab/c") (str "ab") (str "/c")).mpr
     (by decide)⟩

/-- Claim C10: compiling `<any:x>` — the `any` converter with no
parenthesised argument list — fails with the absent-argument error, and
matching through such a route therefore raises rather than falling back to
`string` semantics or to matching the literal text `any`. -/
theorem claim_C10 :
    _compile_route_to_regex (str "<any:x>") = .error CompileError.anyNoArgs ∧
    match_flask_route (str "<any:x>") (str "any") = .error CompileError.anyNoArgs ∧
    match_flask_route (str "<any:x>") (str "seg") = .error CompileError.anyNoArgs := by
  decide

/-- Keys of a dictionary update: an existing key leaves the key sequence
unchanged, a new key is appended at the end. -/
theorem dictInsert_keys {α : Type} (tbl : List (Str × α)) (k : Str) (v : α) :
    (dictInsert tbl k v).map Prod.fst =
      if k ∈ tbl.map Prod.fst then tbl.map Prod.fst else tbl.map Prod.fst ++ [k] := by
  induction tbl with
  | nil =>
    rw [List.map_nil, if_neg (List.not_mem_nil k)]
    rfl
  | cons hd rest ih =>
    obtain ⟨k1, v1⟩ := hd
    by_cases hk : k1 = k
    · subst hk
      simp only [dictInsert, eq_self_iff_true, if_true, List.map_cons]
      rw [if_pos (List.mem_cons_self k1 (rest.map Prod.fst))]
    · simp only [dictInsert, if_neg hk, List.map_cons, ih]
      by_cases hmem : k ∈ rest.map Prod.fst
      · rw [if_pos hmem, if_pos (List.mem_cons_of_mem k1 hmem)]
      · rw [if_neg hmem,
          if_neg (by simp only [List.mem_cons, not_or]; exact ⟨fun he => hk he.symm, hmem⟩)]
        rfl

/-- Looking up the updated key returns the new value. -/
theorem lookup_dictInsert {α : Type} (tbl : List (Str × α)) (k : Str) (v : α) :
    List.lookup k (dictInsert tbl k v) = some v := by
  induction tbl with
  | nil => simp [dictInsert, List.lookup]
  | cons hd rest ih =>
    obtain ⟨k1, v1⟩ := hd
    by_cases hk : k1 = k
    · subst hk
      simp [dictInsert, List.lookup]
    · have hbeq : (k == k1) = false := by
        simp only [beq_eq_false_iff_ne, ne_eq]
        exact fun he => hk he.symm
      simp only [dictInsert, if_neg hk, List.lookup_cons, hbeq]
      exact ih

/-- Claim C9: registering a second handler under a byte-for-byte identical
template does not append a second entry: the key sequence of the table is
unchanged (so the entry keeps its original position in the trial order), the
stored handler is the later one, and a table with pairwise distinct
templates keeps at most one entry per template across registrations. -/
theorem claim_C9 {α : Type} (tbl : List (Str × α)) (k : Str) (v w : α) :
    (route (route tbl k v) k w).map Prod.fst = (route tbl k v).map Prod.fst ∧
    List.lookup k (route (route tbl k v) k w) = some w ∧
    ((tbl.map Prod.fst).Nodup → ((route tbl k v).map Prod.fst).Nodup) := by
  refine ⟨?_, lookup_dictInsert _ _ _, ?_⟩
  · show (dictInsert (dictInsert tbl k v) k w).map Prod.fst = (dictInsert tbl k v).map Prod.fst
    have hmem : k ∈ (dictInsert tbl k v).map Prod.fst := by
      rw [dictInsert_keys]
      by_cases hm2 : k ∈ tbl.map Prod.fst
      · rw [if_pos hm2]
        exact hm2
      · rw [if_neg hm2]
        exact List.mem_append_right _ (List.mem_singleton_self k)
    rw [dictInsert_keys, if_pos hmem]
  · intro hnd
    show ((dictInsert tbl k v).map Prod.fst).Nodup
    rw [dictInsert_keys]
    by_cases hmem : k ∈ tbl.map Prod.fst
    · rw [if_pos hmem]
      exact hnd
    · rw [if_neg hmem, List.nodup_append]
      refine ⟨hnd, List.nodup_singleton _, ?_⟩
      intro a ha hb
      rw [List.mem_singleton] at hb
      subst hb
      exact hmem ha

/-- Claim C9, witness: re-registering the same template on a concrete table
keeps the single entry in place and stores the later handler. -/
theorem claim_C9_witness :
    (route (route ([] : List (Str × Nat)) (str "/x") 1) (str "/x") 2).map Prod.fst =
      (route ([] : List (Str × Nat)) (str "/x") 1).map Prod.fst ∧
    List.lookup (str "/x")
      (route (route ([] : List (Str × Nat)) (str "/x") 1) (str "/x") 2) = some 2 ∧
    ((route ([] : List (Str × Nat)) (str "/x") 1).map Prod.fst).Nodup :=
  ⟨(claim_C9 [] (str "/x") 1 2).1, (claim_C9 [] (str "/x") 1 2).2.1,
   (claim_C9 [] (str "/x") 1 2).2.2 (by decide)⟩

/-- Claim C2, counterexample: a successfully served concrete file gets
status 200 with its Content-Type header, but no Cache-Control, Last-Modified
or ETag header is present, contrary to the claim that all four are sent. -/
theorem claim_C2_counterexample :
    (send_file fs0 (str "index.html")).status = 200 ∧
    List.lookup (str "Content-Type") (send_file fs0 (str "index.html")).headers =
      some (str "text/html") ∧
    List.lookup (str "Cache-Control") (send_file fs0 (str "index.html")).headers = none ∧
    List.lookup (str "Last-Modified") (send_file fs0 (str "index.html")).headers = none ∧
    List.lookup (str "ETag") (send_file fs0 (str "index.html")).headers = none := by decide

/-- Claim C2, amended: for every existing file the response has status 200,
exactly one header — Content-Type from the media-type resolver — and the
file bytes; no Cache-Control, Last-Modified or ETag header is sent, and no
validator is derived from file metadata. -/
theorem claim_C2_amended (fs : FileSystem) (path : Str) (data : List Nat)
    (h : fs path = some data) :
    send_file fs path = ⟨200, [(str "Content-Type", get_content_type path)], data⟩ ∧
    List.lookup (str "Cache-Control") (send_file fs path).headers = none ∧
    List.lookup (str "Last-Modified") (send_file fs path).headers = none ∧
    List.lookup (str "ETag") (send_file fs path).headers = none := by
  have hs : send_file fs path = ⟨200, [(str "Content-Type", get_content_type path)], data⟩ := by
    unfold send_file
    rw [h]
  refine ⟨hs, ?_, ?_, ?_⟩ <;> rw [hs] <;> exact rfl

/-- Claim C2, witness: the amended response shape on a concrete file
system. -/
theorem claim_C2_witness :
    send_file fs0 (str "index.html") =
      ⟨200, [(str "Content-Type", get_content_type (str "index.html"))], [104, 105]⟩ :=
  (claim_C2_amended fs0 (str "index.html") [104, 105] rfl).1

/-- Claim C7, counterexample: with the index document present, a request for
the empty path invokes no handler at all — the result is neither the index
content with status 200 nor a not-found response — contrary to the claim
that the empty string is aliased to the index document. -/
theorem claim_C7_counterexample :
    fs0 (str "index.html") = some [104, 105] ∧
    responsesFor fs0 (str "") = [] := by decide

/-- Claim C7, amended: a request for `/` is aliased to the index document —
its single invoked handler serves `index.html`, yielding the file content
with status 200 when it exists and a 404 response when it does not — but the
empty path matches no registered route and produces no response. -/
theorem claim_C7_amended (fs : FileSystem) :
    responsesFor fs (str "/") = [send_file fs (str "index.html")] ∧
    responsesFor fs (str "") = [] ∧
    (∀ d, fs (str "index.html") = some d →
      send_file fs (str "index.html") =
        ⟨200, [(str "Content-Type", str "text/html")], d⟩) ∧
    (fs (str "index.html") = none → send_file fs (str "index.html") = ⟨404, [], []⟩) := by
  refine ⟨rfl, rfl, ?_, ?_⟩
  · intro d hd
    have hct : get_content_type (str "index.html") = str "text/html" := by decide
    unfold send_file
    rw [hd, ← hct]
  · intro hn
    unfold send_file
    rw [hn]

/-- Claim C7, witness: on the concrete file system holding the index
document, the root path yields its content with status 200 and the empty
path yields nothing. -/
theorem claim_C7_witness :
    responsesFor fs0 (str "/") =
      [⟨200, [(str "Content-Type", str "text/html")], [104, 105]⟩] ∧
    responsesFor fs0 (str "") = [] := by
  obtain ⟨h1, h2, h3, _⟩ := claim_C7_amended fs0
  exact ⟨by rw [h1, h3 [104, 105] rfl], h2⟩

/-- Lower-casing an upper-case code point lands on the code point shifted by
32, which the character constructor preserves in the ASCII range. -/
theorem lowerChar_toNat (c : Char) (h1 : 65 ≤ c.toNat) (h2 : c.toNat ≤ 90) :
    (Char.ofNat (c.toNat + 32)).toNat = c.toNat + 32 := by
  generalize c.toNat = n at h1 h2 ⊢
  interval_cases n <;> decide

/-- Lower-casing a character twice is the same as once. -/
theorem lowerChar_idem (c : Char) : lowerChar (lowerChar c) = lowerChar c := by
  by_cases h : 65 ≤ c.toNat ∧ c.toNat ≤ 90
  · have h1 : lowerChar c = Char.ofNat (c.toNat + 32) := if_pos h
    rw [h1]
    have ht : (Char.ofNat (c.toNat + 32)).toNat = c.toNat + 32 := lowerChar_toNat c h.1 h.2
    unfold lowerChar
    rw [if_neg (by rw [ht]; omega)]
  · have h1 : lowerChar c = c := if_neg h
    rw [h1, h1]

/-- Lower-casing a string twice is the same as once. -/
theorem toLowerStr_idem (s : Str) : toLowerStr (toLowerStr s) = toLowerStr s := by
  unfold toLowerStr
  rw [List.map_map]
  exact List.map_congr_left fun c _ => lowerChar_idem c

/-- Claim C8: media-type resolution is invariant under lower-casing the
path, and a path matching none of the nonempty configured extensions
resolves to the octet-stream default. -/
theorem claim_C8 (p : Str) :
    get_content_type p = get_content_type (toLowerStr p) ∧
    ((mimeMain.all fun e => !endswith (toLowerStr p) e.1) = true →
      get_content_type p = str "application/octet-stream") := by
  constructor
  · unfold get_content_type
    rw [toLowerStr_idem]
  · intro hall
    unfold get_content_type lookupMime
    have hsplit : mime_types = mimeMain ++ [(str "", str "application/octet-stream")] := by
      decide
    rw [hsplit, List.find?_append]
    have hnone : mimeMain.find? (fun e => endswith (toLowerStr p) e.1) = none := by
      rw [List.find?_eq_none]
      intro x hx
      have hb := (List.all_eq_true.mp hall) x hx
      simp only [Bool.not_eq_true'] at hb
      simp [hb]
    have hempty : endswith (toLowerStr p) (str "") = true := by
      show ([] : Str).isSuffixOf (toLowerStr p) = true
      rw [ List.isSuffixOf_iff_suffix]
      exact List.nil_suffix
    have hone : List.find? (fun e => endswith (toLowerStr p) e.1)
        [(str "", str "application/octet-stream")] =
        some (str "", str "application/octet-stream") := by
      simp [List.find?, hempty]
    rw [hnone, hone]
    rfl

/-- Claim C8, witness: `photo.JPG` resolves like `photo.jpg`, and an
unrecognised extension resolves to the octet-stream default. -/
theorem claim_C8_witness :
    get_content_type (str "photo.JPG") = str "image/jpeg" ∧
    get_content_type (toLowerStr (str "photo.JPG")) = str "image/jpeg" ∧
    get_content_type (str "file.xyz") = str "application/octet-stream" := by
  refine ⟨?_, by decide, (claim_C8 (str "file.xyz")).2 (by decide)⟩
  rw [(claim_C8 (str "photo.JPG")).1]
  decide

/-- First-match search equals the head of the filtered list. -/
theorem find?_eq_filter_head {β : Type} (p : β → Bool) (l : List β) :
    l.find? p = (l.filter p).head? := by
  induction l with
  | nil => rfl
  | cons a t ih =>
    by_cases h : p a
    · rw [List.find?_cons_of_pos _ h, List.filter_cons_of_pos h]
      rfl
    · rw [List.find?_cons_of_neg _ h, List.filter_cons_of_neg h, ih]

/-- No nonempty configured extension is a suffix of another one. -/
theorem mimeMain_pairwise :
    mimeMain.Pairwise
      (fun a b => a.1.isSuffixOf b.1 = false ∧ b.1.isSuffixOf a.1 = false) := by
  decide

/-- Any path matches at most one nonempty extension entry. -/
theorem mimeMain_at_most_one (p : Str) :
    (mimeMain.filter fun e => endswith p e.1).length ≤ 1 := by
  rcases hf : mimeMain.filter fun e => endswith p e.1 with _ | ⟨a, _ | ⟨b, t⟩⟩
  · rw [hf]
    exact Nat.zero_le 1
  · rw [hf]
    exact le_rfl
  · exfalso
    have hsub : (a :: b :: t).Sublist mimeMain := hf ▸ List.filter_sublist mimeMain
    have hpw := List.Pairwise.sublist hsub mimeMain_pairwise
    have hrel := (List.pairwise_cons.mp hpw).1 b (List.mem_cons_self b t)
    have hma : a ∈ mimeMain.filter fun e => endswith p e.1 := by
      rw [hf]
      exact List.mem_cons_self a (b :: t)
    have hmb : b ∈ mimeMain.filter fun e => endswith p e.1 := by
      rw [hf]
      exact List.mem_cons_of_mem a (List.mem_cons_self b t)
    have ha0 : endswith p a.1 = true :=
      @List.of_mem_filter _ (fun e => endswith p e.1) a mimeMain hma
    have hb0 : endswith p b.1 = true :=
      @List.of_mem_filter _ (fun e => endswith p e.1) b mimeMain hmb
    have ha : a.1 <:+ p := List.isSuffixOf_iff_suffix.mp ha0
    have hb : b.1 <:+ p := List.isSuffixOf_iff_suffix.mp hb0
    rcases List.suffix_or_suffix_of_suffix ha hb with hs | hs
    · rw [ List.isSuffixOf_iff_suffix.mpr hs] at hrel
      exact Bool.noConfusion hrel.1
    · rw [ List.isSuffixOf_iff_suffix.mpr hs] at hrel
      exact Bool.noConfusion hrel.2

/-- Claim C6, amended: restricted to the nonempty extensions the table is
order-independent — any permutation of those entries resolves every path to
the same media type, because at most one nonempty extension can match a
path — but the full configured table is not order-independent: its final
empty-extension fallback entry matches every path, so an iteration order
trying it earlier changes the outcome. -/
theorem claim_C6_amended (L : List (Str × Str)) (p : Str) (hperm : L.Perm mimeMain) :
    lookupMime L p = lookupMime mimeMain p := by
  unfold lookupMime
  rw [find?_eq_filter_head, find?_eq_filter_head]
  have hfp : (L.filter fun e => endswith p e.1).Perm
      (mimeMain.filter fun e => endswith p e.1) := hperm.filter _
  have hle := mimeMain_at_most_one p
  rcases hf : mimeMain.filter fun e => endswith p e.1 with _ | ⟨a, t⟩
  · rw [hf] at hfp
    rw [List.Perm.eq_nil hfp, hf]
  · rw [hf] at hfp hle
    have ht : t = [] := by
      simp only [List.length_cons] at hle
      exact List.length_eq_zero.mp (by omega)
    subst ht
    rw [List.perm_singleton.mp hfp, hf]

/-- Claim C6, counterexample: moving the configured empty-extension entry to
the front of the table — a permutation of the configured entries — changes
the resolved type of `a.png` from `image/png` to the octet-stream default,
so the result does depend on the order in which the configured entries are
tried. -/
theorem claim_C6_counterexample :
    ((str "", str "application/octet-stream") :: mimeMain).Perm mime_types ∧
    lookupMime ((str "", str "application/octet-stream") :: mimeMain) (str "a.png") ≠
      lookupMime mime_types (str "a.png") := by
  constructor
  · have hsplit : mime_types = mimeMain ++ [(str "", str "application/octet-stream")] := by
      decide
    rw [hsplit]
    exact (List.perm_append_singleton _ _).symm
  · decide

/-- Claim C6, witness: a concrete permutation — the reversed nonempty
table — resolves a concrete path to the same type as the original order. -/
theorem claim_C6_witness :
    lookupMime (List.reverse mimeMain) (str "a.png") = lookupMime mimeMain (str "a.png") ∧
    lookupMime mimeMain (str "a.png") = str "image/png" :=
  ⟨claim_C6_amended (List.reverse mimeMain) (str "a.png") (List.reverse_perm mimeMain),
   by decide⟩

end Waggle
